import Mathlib

/-!
Shallow embedding of the `browse` file browser's core subsystems
(tree model / flattener, viewport windower, ANSI interpreter,
markdown inline renderer, preview classifier, app state machine),
together with theorems settling the specification claims.

Filesystem access is modelled by passing the data the code would read
(directory listings, file metadata, file contents) as explicit inputs.
Paths are identified by abstract numeric ids.
-/

set_option maxRecDepth 4000

/-- One filesystem entry, mirroring `TreeNode` in `src/tree.rs`.
`path` is an abstract path id; `children = none` means "not yet loaded". -/
structure TreeNode where
  name : String
  path : Nat
  is_directory : Bool
  is_symlink : Bool
  children : Option (List TreeNode)

/-- One visible line of the tree view, mirroring `VisibleRow` in `src/tree.rs`. -/
structure VisibleRow where
  node_idx : List Nat
  name : String
  path : Nat
  is_directory : Bool
  is_symlink : Bool
  depth : Nat
  is_expanded : Bool
deriving DecidableEq

/-- Rust `str::to_lowercase`, modelled per-char over the string's
characters (ASCII-faithful). -/
def lower_str (s : String) : String :=
  String.mk (s.data.map Char.toLower)

/-- Rust `str::to_uppercase`, modelled per-char. -/
def upper_str (s : String) : String :=
  String.mk (s.data.map Char.toUpper)

/-- The comparator of `build_tree` (src/tree.rs lines 64-73) as a `≤`-style
Bool relation (`cmp(a,b) != Greater`): directories sort before files, ties
break by case-insensitive (lowercased) name comparison. -/
def tree_le (a b : TreeNode) : Bool :=
  if a.is_directory != b.is_directory then a.is_directory
  else decide (lower_str a.name ≤ lower_str b.name)

/-- `build_tree` (src/tree.rs lines 27-76): reads one directory level and
sorts it. The `fs::read_dir` call plus the per-entry name/metadata/symlink
resolution (lines 35-61) is abstracted as the `entries` input: `Except.error`
is a failed directory read, `Except.ok es` the list of entries in on-disk
enumeration order. An unreadable directory yields the empty list. -/
def build_tree (entries : Except Unit (List TreeNode)) : List TreeNode :=
  match entries with
  | .error _ => []
  | .ok es => es.mergeSort tree_le

/-- `load_children` (src/tree.rs lines 79-84): populate `children` in place by
reading the node's directory; a no-op on non-directories. `read_dir` is the
result of `fs::read_dir(node.path)` plus entry resolution. -/
def load_children (node : TreeNode) (read_dir : Except Unit (List TreeNode)) : TreeNode :=
  if !node.is_directory then node
  else { node with children := some (build_tree read_dir) }

/-- The ordering the spec demands between any earlier row `a` and later row
`b` of one directory listing: directories before files, and case-insensitive
name order within each of the two groups. -/
def spec_order (a b : TreeNode) : Prop :=
  (b.is_directory = true → a.is_directory = true) ∧
  (a.is_directory = b.is_directory → lower_str a.name ≤ lower_str b.name)

/-- Rust `str::starts_with(char)`: true when the first character matches.
Used for the hidden-entry filter `node.name.starts_with('.')`. -/
def starts_with_char (s : String) (c : Char) : Bool :=
  match s.data with
  | [] => false
  | a :: _ => a = c

/-- `MAX_TREE_DEPTH` (src/tree.rs line 86). -/
def MAX_TREE_DEPTH : Nat := 50

/-- `flatten_recursive` (src/tree.rs lines 99-140). `fs` supplies the result
of `fs::read_dir` for each path id (the reload performed by `load_children`
inside the loop, line 132). `idx_path` and `i` track the index path exactly
as the Rust loop does; the in-place child mutation has no effect on the
emitted rows and is dropped. -/
def flatten_recursive (fs : Nat → Except Unit (List TreeNode))
    (expanded : List Nat) (show_hidden : Bool)
    (depth : Nat) (idx_path : List Nat) (i : Nat) (nodes : List TreeNode) :
    List VisibleRow :=
  if depth > MAX_TREE_DEPTH then []
  else
    match nodes with
    | [] => []
    | node :: rest =>
      if !show_hidden && starts_with_char node.name '.' then
        flatten_recursive fs expanded show_hidden depth idx_path (i + 1) rest
      else
        let is_expanded := node.is_directory && expanded.contains node.path
        ⟨idx_path ++ [i], node.name, node.path, node.is_directory,
          node.is_symlink, depth, is_expanded⟩ ::
        ((if is_expanded then
            flatten_recursive fs expanded show_hidden (depth + 1)
              (idx_path ++ [i]) 0 (build_tree (fs node.path))
          else []) ++
         flatten_recursive fs expanded show_hidden depth idx_path (i + 1) rest)
termination_by (MAX_TREE_DEPTH + 1 - depth, nodes)
decreasing_by
  · apply Prod.Lex.right
    simp
  · apply Prod.Lex.left
    omega
  · apply Prod.Lex.right
    simp

/-- `flatten_tree` (src/tree.rs lines 89-97). -/
def flatten_tree (fs : Nat → Except Unit (List TreeNode))
    (expanded : List Nat) (show_hidden : Bool) (nodes : List TreeNode) :
    List VisibleRow :=
  flatten_recursive fs expanded show_hidden 0 [] 0 nodes

/-- Depth of the row at position `i` (0 when out of bounds, matching the
`unwrap_or(0)` in `find_parent_row`). -/
def rdepth (rows : List VisibleRow) (i : Nat) : Nat :=
  ((rows[i]?).map VisibleRow.depth).getD 0

/-- The backward scan of `find_parent_row` (src/tree.rs lines 148-152):
`for i in (0..index).rev()`, returning the first `i` whose depth is below
`current_depth`, or `index` if none is found. -/
def find_parent_loop (rows : List VisibleRow) (current_depth index : Nat) :
    Nat → Nat
  | 0 => index
  | i + 1 =>
    if rdepth rows i < current_depth then i
    else find_parent_loop rows current_depth index i

/-- `find_parent_row` (src/tree.rs lines 143-154). -/
def find_parent_row (rows : List VisibleRow) (index : Nat) : Nat :=
  let current_depth := rdepth rows index
  if current_depth = 0 then index
  else find_parent_loop rows current_depth index index

/-- The parent relation the spec asserts at row `i`: a strictly earlier row
one depth level up, with nothing shallower strictly in between. -/
def ParentWitness (rows : List VisibleRow) (i : Nat) : Prop :=
  ∃ j, j < i ∧ rdepth rows j + 1 = rdepth rows i ∧
    ∀ k, j < k → k < i → rdepth rows i ≤ rdepth rows k

/-- Depth-consistency of a row list relative to base depth `d`. -/
def FlattenNested (d : Nat) (rows : List VisibleRow) : Prop :=
  ∀ i, i < rows.length → d < rdepth rows i → ParentWitness rows i

/-- Example filesystem for the C1 witness: path 1 is a directory containing
one plain file. -/
def fs_ex : Nat → Except Unit (List TreeNode) :=
  fun p => if p = 1 then .ok [⟨"x.txt", 2, false, false, none⟩] else .error ()

/-- Example root listing for the C1 witness. -/
def nodes_ex : List TreeNode :=
  [⟨"a", 1, true, false, none⟩, ⟨"b.txt", 3, false, false, none⟩]

/-- Scroll-offset computation of `draw_tree` (src/ui.rs lines 30-39), as a
function of the row count, selected index and panel height. Nat subtraction
is Rust `saturating_sub`. -/
def draw_tree_scroll_offset (rows_len selected area_height : Nat) : Nat :=
  let list_height := area_height - 1
  if rows_len > list_height then
    min (selected - list_height / 2) (rows_len - list_height)
  else 0

/-- Scroll-offset computation of `App::click_tree` (src/app.rs lines
206-215). -/
def click_tree_scroll_offset (rows_len selected area_height : Nat) : Nat :=
  let list_height := area_height - 1
  if rows_len > list_height then
    min (selected - list_height / 2) (rows_len - list_height)
  else 0

/-- The spec's windowing formula, over the viewport height itself:
`clamp(selectedIndex - viewportHeight/2, 0, totalRows - viewportHeight)`
when the list overflows the viewport, else `0` (integer arithmetic, clamped
below at zero). -/
def spec_scroll_offset (total selected viewport : Nat) : Int :=
  if total > viewport then
    max 0 (min ((selected : Int) - (viewport : Int) / 2)
      ((total : Int) - (viewport : Int)))
  else 0

/-- Ratatui color vocabulary used by src/ansi.rs. -/
inductive AnsiColor where
  | black | red | green | yellow | blue | magenta | cyan | white
  | darkGray | lightRed | lightGreen | lightYellow | lightBlue
  | lightMagenta | lightCyan
  | indexed (n : Nat)
  | rgb (r g b : Nat)
  | reset
deriving DecidableEq

/-- Ratatui `Style`: six modifier flags plus optional foreground/background
colors. `Style::default()` has no modifiers and no colors set. -/
structure AnsiStyle where
  bold : Bool
  dim : Bool
  italic : Bool
  underlined : Bool
  reversed : Bool
  crossed_out : Bool
  fg : Option AnsiColor
  bg : Option AnsiColor
deriving DecidableEq

/-- `Style::default()`. -/
def AnsiStyle.default : AnsiStyle :=
  ⟨false, false, false, false, false, false, none, none⟩

/-- `basic_color` (src/ansi.rs lines 133-145). -/
def basic_color (n : Nat) : AnsiColor :=
  match n with
  | 0 => .black
  | 1 => .red
  | 2 => .green
  | 3 => .yellow
  | 4 => .blue
  | 5 => .magenta
  | 6 => .cyan
  | 7 => .white
  | _ => .reset

/-- `bright_color` (src/ansi.rs lines 147-159). -/
def bright_color (n : Nat) : AnsiColor :=
  match n with
  | 0 => .darkGray
  | 1 => .lightRed
  | 2 => .lightGreen
  | 3 => .lightYellow
  | 4 => .lightBlue
  | 5 => .lightMagenta
  | 6 => .lightCyan
  | 7 => .white
  | _ => .reset

/-- The SGR application loop of `parse_ansi_line` (src/ansi.rs lines 46-118).
Parameters are u16 values; the `as u8` narrowing for indexed/RGB colors is
`% 256`. The extra-parameter consumption of codes 38/48 (`pi += 2` /
`pi += 4`, falling through to `pi += 1` when the introducer is incomplete)
is mirrored by the match arms. -/
def apply_sgr (style : AnsiStyle) : List Nat → AnsiStyle
  | [] => style
  | p :: rest =>
    match p with
    | 0 => apply_sgr AnsiStyle.default rest
    | 1 => apply_sgr { style with bold := true } rest
    | 2 => apply_sgr { style with dim := true } rest
    | 3 => apply_sgr { style with italic := true } rest
    | 4 => apply_sgr { style with underlined := true } rest
    | 7 => apply_sgr { style with reversed := true } rest
    | 9 => apply_sgr { style with crossed_out := true } rest
    | 22 => apply_sgr { style with bold := false, dim := false } rest
    | 23 => apply_sgr { style with italic := false } rest
    | 24 => apply_sgr { style with underlined := false } rest
    | 27 => apply_sgr { style with reversed := false } rest
    | 38 =>
      match rest with
      | 5 :: n :: rest2 =>
        apply_sgr { style with fg := some (.indexed (n % 256)) } rest2
      | 2 :: r :: g :: b :: rest2 =>
        apply_sgr { style with fg := some (.rgb (r % 256) (g % 256) (b % 256)) } rest2
      | other => apply_sgr style other
    | 48 =>
      match rest with
      | 5 :: n :: rest2 =>
        apply_sgr { style with bg := some (.indexed (n % 256)) } rest2
      | 2 :: r :: g :: b :: rest2 =>
        apply_sgr { style with bg := some (.rgb (r % 256) (g % 256) (b % 256)) } rest2
      | other => apply_sgr style other
    | 39 => apply_sgr { style with fg := some .reset } rest
    | 49 => apply_sgr { style with bg := some .reset } rest
    | p =>
      if 30 ≤ p ∧ p ≤ 37 then apply_sgr { style with fg := some (basic_color (p - 30)) } rest
      else if 40 ≤ p ∧ p ≤ 47 then apply_sgr { style with bg := some (basic_color (p - 40)) } rest
      else if 90 ≤ p ∧ p ≤ 97 then apply_sgr { style with fg := some (bright_color (p - 90)) } rest
      else if 100 ≤ p ∧ p ≤ 107 then apply_sgr { style with bg := some (bright_color (p - 100)) } rest
      else apply_sgr style rest
termination_by ps => ps.length
decreasing_by all_goals (simp <;> omega)

/-- The CSI parameter scanning loop of `parse_ansi_line` (src/ansi.rs lines
25-43), over the bytes after `ESC [`. Digits accumulate into `num` (u16
arithmetic, `% 65536`), `;` pushes a parameter, `m` pushes the pending
parameter and stops, any other byte stops without pushing; input exhaustion
also stops without pushing. Returns the collected parameters and the
remaining bytes. -/
def scan_csi (bytes : List Nat) (params : List Nat) (num : Option Nat) :
    List Nat × List Nat :=
  match bytes with
  | [] => (params, [])
  | b :: rest =>
    if 48 ≤ b ∧ b ≤ 57 then
      scan_csi rest params (some ((num.getD 0 * 10 + (b - 48)) % 65536))
    else if b = 59 then scan_csi rest (params ++ [num.getD 0]) none
    else if b = 109 then (params ++ [num.getD 0], rest)
    else (params, rest)

/-- Stated from the amended claim C4, for comparison with the parser: over a
CSI parameter section made of digits and `;` separators, the parameters
completed by `;` — digits accumulate into a pending u16 value and each `;`
appends it — with the value still pending at the end of the section (the one
in progress at the aborting byte) discarded. -/
def completed_params (num : Option Nat) : List Nat → List Nat
  | [] => []
  | b :: rest =>
    if 48 ≤ b ∧ b ≤ 57 then
      completed_params (some ((num.getD 0 * 10 + (b - 48)) % 65536)) rest
    else num.getD 0 :: completed_params none rest

/-- The main scanning loop of `parse_ansi_line` (src/ansi.rs lines 13-123):
`style` is `current_style`, `buf` the pending text run (each non-escape byte
is pushed as a char, `bytes[i] as char`, i.e. its Latin-1 code point), and a
`ESC [` pair triggers the CSI scan followed by SGR application. The final
flush (lines 126-128) is the `[]` case. -/
def ansi_run (style : AnsiStyle) (buf : List Char) :
    List Nat → List (List Char × AnsiStyle)
  | [] => if buf = [] then [] else [(buf, style)]
  | b :: [] => ansi_run style (buf ++ [Char.ofNat b]) []
  | b :: r :: rest2 =>
    if b = 27 ∧ r = 91 then
      (if buf = [] then [] else [(buf, style)]) ++
        ansi_run (apply_sgr style (scan_csi rest2 [] none).1) []
          (scan_csi rest2 [] none).2
    else ansi_run style (buf ++ [Char.ofNat b]) (r :: rest2)
termination_by bytes => bytes.length
decreasing_by
  · simp
  · have hb : ∀ (l p : List Nat) (n : Option Nat),
        (scan_csi l p n).2.length ≤ l.length := by
      intro l
      induction l with
      | nil =>
        intro _ _
        simp [scan_csi]
      | cons b r ihl =>
        intro p n
        rw [scan_csi]
        by_cases h1 : 48 ≤ b ∧ b ≤ 57
        · rw [if_pos h1]
          exact le_trans (ihl _ _) (by simp)
        · rw [if_neg h1]
          by_cases h2 : b = 59
          · rw [if_pos h2]
            exact le_trans (ihl _ _) (by simp)
          · rw [if_neg h2]
            by_cases h3 : b = 109
            · rw [if_pos h3]
              simp
            · rw [if_neg h3]
              simp
    have := hb rest2 [] none
    simp
    omega
  · simp

/-- `parse_ansi_line` (src/ansi.rs lines 5-131): input is the UTF-8 byte
sequence of the Rust `&str` argument; output is the list of styled spans of
the returned `Line`. -/
def parse_ansi_line (input : List Nat) : List (List Char × AnsiStyle) :=
  ansi_run AnsiStyle.default [] input

/-- Concatenation of the text of a span list. -/
def spans_text (spans : List (List Char × AnsiStyle)) : List Char :=
  spans.foldr (fun sp acc => sp.1 ++ acc) []

/-- The input bytes with CSI escape sequences removed, skipping exactly the
bytes `parse_ansi_line` consumes for each `ESC [` sequence. -/
def strip_csi : List Nat → List Nat
  | [] => []
  | b :: [] => [b]
  | b :: r :: rest2 =>
    if b = 27 ∧ r = 91 then strip_csi (scan_csi rest2 [] none).2
    else b :: strip_csi (r :: rest2)
termination_by bytes => bytes.length
decreasing_by
  · have hb : ∀ (l p : List Nat) (n : Option Nat),
        (scan_csi l p n).2.length ≤ l.length := by
      intro l
      induction l with
      | nil =>
        intro _ _
        simp [scan_csi]
      | cons b r ihl =>
        intro p n
        rw [scan_csi]
        by_cases h1 : 48 ≤ b ∧ b ≤ 57
        · rw [if_pos h1]
          exact le_trans (ihl _ _) (by simp)
        · rw [if_neg h1]
          by_cases h2 : b = 59
          · rw [if_pos h2]
            exact le_trans (ihl _ _) (by simp)
          · rw [if_neg h2]
            by_cases h3 : b = 109
            · rw [if_pos h3]
              simp
            · rw [if_neg h3]
              simp
    have := hb rest2 [] none
    simp
    omega
  · simp

/-- Standard UTF-8 encoding of one char, as byte values. Models how a Rust
`&str` exposes its text through `as_bytes()` (src/ansi.rs line 9). -/
def utf8_encode_char (c : Char) : List Nat :=
  let n := c.toNat
  if n < 128 then [n]
  else if n < 2048 then [192 + n / 64, 128 + n % 64]
  else if n < 65536 then
    [224 + n / 4096, 128 + (n / 64) % 64, 128 + n % 64]
  else
    [240 + n / 262144, 128 + (n / 4096) % 64, 128 + (n / 64) % 64, 128 + n % 64]

/-- UTF-8 byte sequence of a string (Rust `str::as_bytes`). -/
def utf8_bytes (s : String) : List Nat :=
  s.data.foldr (fun c acc => utf8_encode_char c ++ acc) []

/-- ANSI escape constants of src/preview.rs lines 8-17, as char lists. -/
def ESC_RESET : List Char := ['\x1b', '[', '0', 'm']

def ESC_BOLD : List Char := ['\x1b', '[', '1', 'm']

def ESC_DIM : List Char := ['\x1b', '[', '2', 'm']

def ESC_ITALIC : List Char := ['\x1b', '[', '3', 'm']

def ESC_CYAN : List Char := ['\x1b', '[', '3', '6', 'm']

def ESC_BLUE : List Char := ['\x1b', '[', '3', '4', 'm']

/-- `find_closing` (src/preview.rs lines 350-357), relative form: position of
the first occurrence of `target` in the remaining chars (the Rust call scans
`chars[start..]`; this takes that suffix directly). -/
def find_closing (chars : List Char) (target : Char) : Option Nat :=
  match chars with
  | [] => none
  | a :: rest =>
    if a = target then some 0 else (find_closing rest target).map (· + 1)

/-- `find_double_closing` (src/preview.rs lines 359-366), relative form:
position of the first index where `target` occurs twice in a row. -/
def find_double_closing (chars : List Char) (target : Char) : Option Nat :=
  match chars with
  | a :: b :: rest =>
    if a = target ∧ b = target then some 0
    else (find_double_closing (b :: rest) target).map (· + 1)
  | _ => none

/-- The scanning loop of `render_inline` (src/preview.rs lines 292-348) over
the remaining characters. Branch order and fall-through mirror the source:
inline code, bold, italic, link, literal push. Each `find_closing` call on a
suffix is the Rust call at the corresponding absolute start index. -/
def inline_go : List Char → List Char
  | [] => []
  | c :: rest =>
    if c = Char.ofNat 96 then
      match find_closing rest (Char.ofNat 96) with
      | some k =>
        ESC_DIM ++ ESC_CYAN ++ rest.take k ++ ESC_RESET ++
          inline_go (rest.drop (k + 1))
      | none => c :: inline_go rest
    else if c = '*' ∧ rest.head? = some '*' then
      match find_double_closing rest.tail '*' with
      | some k =>
        ESC_BOLD ++ rest.tail.take k ++ ESC_RESET ++
          inline_go (rest.tail.drop (k + 2))
      | none => c :: inline_go rest
    else if c = '*' ∧ rest ≠ [] then
      match find_closing rest '*' with
      | some k =>
        ESC_ITALIC ++ rest.take k ++ ESC_RESET ++
          inline_go (rest.drop (k + 1))
      | none => c :: inline_go rest
    else if c = '[' then
      match find_closing rest ']' with
      | some k =>
        match (rest.drop (k + 1)).head? with
        | some a =>
          if a = '(' then
            match find_closing (rest.drop (k + 2)) ')' with
            | some k2 =>
              ESC_BLUE ++ rest.take k ++ ESC_RESET ++
                inline_go ((rest.drop (k + 2)).drop (k2 + 1))
            | none => c :: inline_go rest
          else c :: inline_go rest
        | none => c :: inline_go rest
      | none => c :: inline_go rest
    else c :: inline_go rest
termination_by l => l.length
decreasing_by all_goals
  (simp only [List.length_drop, List.length_cons, List.length_tail]; omega)

/-- `render_inline` (src/preview.rs lines 292-348). -/
def render_inline (text : String) : String :=
  String.mk (inline_go text.data)

/-- `PreviewContent` (src/preview.rs lines 22-28). -/
inductive PreviewContent where
  | Text (s : String)
  | Directory (s : String)
  | Binary (s : String)
  | Empty
  | Error (s : String)
deriving DecidableEq

/-- `MAX_PREVIEW_BYTES` (src/preview.rs line 19). -/
def MAX_PREVIEW_BYTES : Nat := 512 * 1024

/-- `MAX_PREVIEW_LINES` (src/preview.rs line 20). -/
def MAX_PREVIEW_LINES : Nat := 1000

/-- `BINARY_EXTS` (src/preview.rs lines 402-407). -/
def BINARY_EXTS : List String :=
  ["png", "jpg", "jpeg", "gif", "bmp", "ico", "webp", "avif", "mp3", "mp4",
   "wav", "avi", "mkv", "mov", "flac", "ogg", "zip", "gz", "tar", "bz2",
   "xz", "7z", "rar", "pdf", "doc", "docx", "xls", "xlsx", "ppt", "pptx",
   "exe", "dll", "so", "dylib", "bin", "o", "a", "woff", "woff2", "ttf",
   "otf", "eot", "sqlite", "db"]

/-- `is_likely_binary` (src/preview.rs lines 401-415), as a function of the
path's extension (`None` when the path has none). -/
def is_likely_binary (ext : Option String) : Bool :=
  match ext with
  | none => false
  | some e => BINARY_EXTS.contains (lower_str e)

/-- One-decimal rendering of `bytes / unit` as Rust format `{:.1}` prints
it: round the exact quotient to the nearest tenth, ties to even, in exact
Nat arithmetic. The source computes in f64, but the divisors are powers of
two, so for sizes below 2^53 the f64 value is exact and `{:.1}` performs
exactly this rounding. -/
def format_one_decimal (bytes unit : Nat) : String :=
  let q := bytes * 10 / unit
  let r := bytes * 10 % unit
  let t :=
    if 2 * r > unit then q + 1
    else if 2 * r < unit then q
    else if q % 2 = 0 then q else q + 1
  toString (t / 10) ++ "." ++ toString (t % 10)

/-- `format_size` (src/preview.rs lines 417-427). -/
def format_size (bytes : Nat) : String :=
  if bytes < 1024 then toString bytes ++ " B"
  else if bytes < 1024 * 1024 then format_one_decimal bytes 1024 ++ " KB"
  else if bytes < 1024 * 1024 * 1024 then
    format_one_decimal bytes (1024 * 1024) ++ " MB"
  else format_one_decimal bytes (1024 * 1024 * 1024) ++ " GB"

/-- Rust `str::lines()`: split on `\n`; every piece before a `\n` loses one
trailing `\r` (the `\r\n` case); the final piece is dropped when empty (the
input ended with `\n`) and otherwise kept verbatim, `\r` included, since no
newline followed it. -/
def rust_lines (s : String) : List String :=
  let parts := s.splitOn "\n"
  let init := parts.dropLast.map
    (fun l => if l.endsWith "\r" then l.dropRight 1 else l)
  match parts.getLast? with
  | some "" => init
  | some l => init ++ [l]
  | none => []

/-- File metadata as `Previewer::preview` consumes it. -/
structure FileMetadata where
  is_dir : Bool
  len : Nat

/-- `Previewer::preview` (src/preview.rs lines 43-125). External effects are
passed in: `metadata` is `fs::metadata(file_path)`; `ext` the path's
extension; `read_to_string` the result of `fs::read_to_string`;
`dir_preview` the result of `preview_directory` (fs-dependent, lines
250-270); `render_markdown` the markdown renderer (lines 128-248, which
needs the syntect collaborator for fences); `highlighter` the resolved
syntect syntax+theme for this file (`None` when no syntax matches), whose
per-line highlighting loop (lines 111-119) is abstracted as a function on
the truncated text, followed by the reset push of line 120. -/
def Previewer.preview (metadata : Except String FileMetadata)
    (ext : Option String) (read_to_string : Except String String)
    (dir_preview : PreviewContent × Nat)
    (render_markdown : String → String)
    (highlighter : Option (String → String)) : PreviewContent × Nat :=
  match metadata with
  | .error e => (.Error ("Error: " ++ e), 1)
  | .ok m =>
    if m.is_dir then dir_preview
    else if is_likely_binary ext then
      let extU := (ext.map upper_str).getD "unknown"
      (.Binary ("Binary file (" ++ extU ++ ")\nSize: " ++ format_size m.len), 2)
    else if m.len = 0 then (.Empty, 1)
    else if m.len > MAX_PREVIEW_BYTES then
      (.Text ("File too large to preview (" ++ format_size m.len ++ ")"), 1)
    else
      match read_to_string with
      | .error e => (.Error ("Error: " ++ e), 1)
      | .ok content =>
        let lines := rust_lines content
        let total_lines := lines.length
        let truncated :=
          if lines.length > MAX_PREVIEW_LINES then
            String.intercalate "\n" (lines.take MAX_PREVIEW_LINES)
          else content
        let ext_lower := (ext.map lower_str).getD ""
        if ext_lower = "md" ∨ ext_lower = "mdx" then
          (.Text (render_markdown truncated), total_lines)
        else
          match highlighter with
          | some hl => (.Text (hl truncated ++ "\x1b[0m"), total_lines)
          | none => (.Text truncated, total_lines)

/-- `App` (src/app.rs lines 8-20). The previewer is passed to each operation
as a function from path ids; `root_path` is a path id. -/
structure App where
  root_path : Nat
  tree : List TreeNode
  expanded : List Nat
  visible_rows : List VisibleRow
  selected_index : Nat
  show_hidden : Bool
  preview_scroll : Nat
  preview_cache : PreviewContent × Nat
  should_quit : Bool
  last_preview_path : Option Nat

/-- `App::update_preview` (src/app.rs lines 74-88). `pv` is
`self.previewer.preview`. -/
def App.update_preview (pv : Nat → PreviewContent × Nat) (app : App) : App :=
  let current_path := (app.visible_rows[app.selected_index]?).map (·.path)
  if current_path ≠ app.last_preview_path then
    { app with
      last_preview_path := current_path,
      preview_cache :=
        match current_path with
        | some p => pv p
        | none => (.Empty, 0) }
  else app

/-- `App::refresh` (src/app.rs lines 59-72). `fs` supplies directory reads;
the tree is rebuilt from disk, flattened, the selection clamped, and the
preview updated. (The flattener's in-place child loading does not affect the
row list, so `tree` holds the freshly built level.) -/
def App.refresh (fs : Nat → Except Unit (List TreeNode))
    (pv : Nat → PreviewContent × Nat) (app : App) : App :=
  let tree := build_tree (fs app.root_path)
  let rows := flatten_tree fs app.expanded app.show_hidden tree
  let app := { app with tree := tree, visible_rows := rows }
  let app :=
    if app.visible_rows.isEmpty then { app with selected_index := 0 }
    else if app.visible_rows.length ≤ app.selected_index then
      { app with selected_index := app.visible_rows.length - 1 }
    else app
  App.update_preview pv app

/-- `App::move_down` (src/app.rs lines 90-96). -/
def App.move_down (pv : Nat → PreviewContent × Nat) (app : App) : App :=
  if app.selected_index < app.visible_rows.length - 1 then
    App.update_preview pv
      { app with selected_index := app.selected_index + 1, preview_scroll := 0 }
  else app

/-- `App::move_up` (src/app.rs lines 98-104). -/
def App.move_up (pv : Nat → PreviewContent × Nat) (app : App) : App :=
  if app.selected_index > 0 then
    App.update_preview pv
      { app with selected_index := app.selected_index - 1, preview_scroll := 0 }
  else app

/-- `App::jump_top` (src/app.rs lines 106-110). -/
def App.jump_top (pv : Nat → PreviewContent × Nat) (app : App) : App :=
  App.update_preview pv { app with selected_index := 0, preview_scroll := 0 }

/-- `App::jump_bottom` (src/app.rs lines 112-116). -/
def App.jump_bottom (pv : Nat → PreviewContent × Nat) (app : App) : App :=
  App.update_preview pv
    { app with
      selected_index := app.visible_rows.length - 1
      preview_scroll := 0 }

/-- `App::toggle_expand` (src/app.rs lines 118-135). The `HashSet` of
expanded paths is a list with membership semantics. -/
def App.toggle_expand (fs : Nat → Except Unit (List TreeNode))
    (pv : Nat → PreviewContent × Nat) (app : App) : App :=
  match app.visible_rows[app.selected_index]? with
  | none => app
  | some row =>
    if !row.is_directory then app
    else
      let expanded :=
        if app.expanded.contains row.path then
          app.expanded.filter (· ≠ row.path)
        else row.path :: app.expanded
      App.refresh fs pv { app with expanded := expanded, preview_scroll := 0 }

/-- `App::collapse_or_parent` (src/app.rs lines 137-158). -/
def App.collapse_or_parent (fs : Nat → Except Unit (List TreeNode))
    (pv : Nat → PreviewContent × Nat) (app : App) : App :=
  match app.visible_rows[app.selected_index]? with
  | none => app
  | some row =>
    if row.is_expanded then
      App.refresh fs pv
        { app with
          expanded := app.expanded.filter (· ≠ row.path)
          preview_scroll := 0 }
    else
      let parent_idx := find_parent_row app.visible_rows app.selected_index
      if parent_idx ≠ app.selected_index then
        App.update_preview pv
          { app with selected_index := parent_idx, preview_scroll := 0 }
      else app

/-- `App::toggle_hidden` (src/app.rs lines 160-165). -/
def App.toggle_hidden (fs : Nat → Except Unit (List TreeNode))
    (pv : Nat → PreviewContent × Nat) (app : App) : App :=
  App.refresh fs pv
    { app with
      show_hidden := !app.show_hidden
      selected_index := 0
      preview_scroll := 0 }

/-- `App::scroll_preview_down` (src/app.rs lines 198-200). -/
def App.scroll_preview_down (amount : Nat) (app : App) : App :=
  { app with preview_scroll := app.preview_scroll + amount }

/-- `App::scroll_preview_up` (src/app.rs lines 202-204). -/
def App.scroll_preview_up (amount : Nat) (app : App) : App :=
  { app with preview_scroll := app.preview_scroll - amount }

/-- A placeholder row for the guarded index access in `click_tree` (the Rust
code indexes `visible_rows[row_idx]` after checking the bound). -/
def dummy_row : VisibleRow :=
  ⟨[], "", 0, false, false, 0, false⟩

/-- `App::click_tree` (src/app.rs lines 206-238); `y` and `area_height` are
the u16 arguments. -/
def App.click_tree (fs : Nat → Except Unit (List TreeNode))
    (pv : Nat → PreviewContent × Nat) (y area_height : Nat) (app : App) :
    App :=
  let list_height := area_height - 1
  let entries_height := list_height - 2
  let scroll_offset :=
    if app.visible_rows.length > list_height then
      min (app.selected_index - list_height / 2)
        (app.visible_rows.length - list_height)
    else 0
  if y < 2 then app
  else
    let entry_idx := y - 2
    if entry_idx ≥ entries_height then app
    else
      let row_idx := scroll_offset + entry_idx
      if row_idx ≥ app.visible_rows.length then app
      else
        let app := App.update_preview pv
          { app with selected_index := row_idx, preview_scroll := 0 }
        if (app.visible_rows.getD row_idx dummy_row).is_directory then
          App.toggle_expand fs pv app
        else app

/-- Concrete app state for the C9 witness: empty listing, no cached path. -/
def app_ex0 : App :=
  ⟨0, [], [], [], 0, false, 0, (.Empty, 0), false, none⟩

/-- Concrete app state for the C9 witness miss case: stale cache key. -/
def app_ex1 : App :=
  ⟨0, [], [], [], 0, false, 0, (.Text "stale", 3), false, some 5⟩

/-- The selection bound invariant of claim C10: the selected index is `0`
when the visible row list is empty and in bounds otherwise. -/
def SelInv (app : App) : Prop :=
  if app.visible_rows.length = 0 then app.selected_index = 0
  else app.selected_index < app.visible_rows.length

theorem tree_le_total (a b : TreeNode) : tree_le a b || tree_le b a := by
  unfold tree_le
  rcases ha : a.is_directory <;> rcases hb : b.is_directory <;>
    simp [ha, hb, le_total]

theorem tree_le_trans (a b c : TreeNode) :
    tree_le a b → tree_le b c → tree_le a c := by
  unfold tree_le
  rcases ha : a.is_directory <;> rcases hb : b.is_directory <;>
      rcases hc : c.is_directory <;> simp [ha, hb, hc]
  · exact le_trans
  · exact le_trans

theorem tree_le_spec_order {a b : TreeNode} (h : tree_le a b = true) : spec_order a b := by
  unfold tree_le at h
  constructor
  · intro hb
    rcases ha : a.is_directory
    · simp [ha, hb] at h
    · rfl
  · intro hd
    simp [hd] at h
    exact String.le_iff_toList_le.mpr h

/-- Claim C2: for every directory listing (any enumeration order the
filesystem produces), `build_tree` returns a permutation of the entries in
which every pair of positions `i < j` satisfies: directories precede files,
and entries in the same group are in case-insensitive name order. -/
theorem build_tree_sorted_dirs_first (entries : List TreeNode) :
    (build_tree (.ok entries)).Perm entries ∧
    (build_tree (.ok entries)).Pairwise spec_order := by
  constructor
  · exact List.mergeSort_perm entries tree_le
  · exact (List.sorted_mergeSort tree_le_trans tree_le_total entries).imp
      (fun h => tree_le_spec_order h)

/-- Claim C8: a failed directory read (permission denied, vanished entry,
unreadable directory) makes `build_tree` return the empty node list, and
`load_children` on a directory node whose read fails sets `children` to the
empty list. -/
theorem build_tree_error_empty (e : Unit) (node : TreeNode)
    (hdir : node.is_directory = true) :
    build_tree (.error e) = [] ∧
    load_children node (.error e) = { node with children := some [] } := by
  constructor
  · rfl
  · simp [load_children, hdir, build_tree]

/-- Witness for C8 at a concrete directory node. -/
theorem build_tree_error_empty_witness :
    build_tree (.error ()) = [] ∧
    load_children ⟨"a", 1, true, false, none⟩ (.error ()) =
      ⟨"a", 1, true, false, some []⟩ :=
  build_tree_error_empty () ⟨"a", 1, true, false, none⟩ rfl

theorem rdepth_cons_zero (r : VisibleRow) (l : List VisibleRow) :
    rdepth (r :: l) 0 = r.depth := by
  simp [rdepth]

theorem rdepth_cons_succ (r : VisibleRow) (l : List VisibleRow) (i : Nat) :
    rdepth (r :: l) (i + 1) = rdepth l i := by
  simp [rdepth]

theorem rdepth_append_left {l₁ l₂ : List VisibleRow} {i : Nat}
    (h : i < l₁.length) : rdepth (l₁ ++ l₂) i = rdepth l₁ i := by
  simp [rdepth, List.getElem?_append_left h]

theorem rdepth_append_right {l₁ l₂ : List VisibleRow} {i : Nat}
    (h : l₁.length ≤ i) : rdepth (l₁ ++ l₂) i = rdepth l₂ (i - l₁.length) := by
  simp [rdepth, List.getElem?_append_right h]

theorem rdepth_of_forall {rows : List VisibleRow} {d i : Nat}
    (hall : ∀ r ∈ rows, d ≤ r.depth) (hi : i < rows.length) :
    d ≤ rdepth rows i := by
  have : rows[i]? = some rows[i] := List.getElem?_eq_getElem hi
  simp [rdepth, this]
  exact hall _ (List.getElem_mem hi)

theorem flattenNested_nil (d : Nat) : FlattenNested d [] := by
  intro i hi
  simp at hi

theorem flattenNested_block {d : Nat} {row : VisibleRow}
    {children rest : List VisibleRow}
    (hrow : row.depth = d)
    (hch1 : ∀ r ∈ children, d + 1 ≤ r.depth)
    (hch2 : FlattenNested (d + 1) children)
    (hr2 : FlattenNested d rest) :
    FlattenNested d (row :: (children ++ rest)) := by
  intro i hi hdi
  match i with
  | 0 =>
    rw [rdepth_cons_zero, hrow] at hdi
    omega
  | (i' + 1) =>
    rw [rdepth_cons_succ] at hdi
    simp at hi
    by_cases hci : i' < children.length
    · rw [rdepth_append_left hci] at hdi
      have hlb : d + 1 ≤ rdepth children i' := rdepth_of_forall hch1 hci
      by_cases hde : rdepth children i' = d + 1
      · refine ⟨0, by omega, ?_, ?_⟩
        · rw [rdepth_cons_zero, hrow, rdepth_cons_succ, rdepth_append_left hci, hde]
        · intro k hk0 hki
          match k with
          | (k' + 1) =>
            have hk'c : k' < children.length := by omega
            rw [rdepth_cons_succ, rdepth_cons_succ,
              rdepth_append_left hci, rdepth_append_left hk'c, hde]
            exact rdepth_of_forall hch1 hk'c
      · obtain ⟨j', hj'i, hj'd, hj'btw⟩ := hch2 i' hci (by omega)
        refine ⟨j' + 1, by omega, ?_, ?_⟩
        · rw [rdepth_cons_succ, rdepth_cons_succ,
            rdepth_append_left hci, rdepth_append_left (by omega : j' < children.length)]
          exact hj'd
        · intro k hkj hki
          match k with
          | (k' + 1) =>
            have hk'c : k' < children.length := by omega
            rw [rdepth_cons_succ, rdepth_cons_succ,
              rdepth_append_left hci, rdepth_append_left hk'c]
            exact hj'btw k' (by omega) (by omega)
    · have hclen : children.length ≤ i' := by omega
      rw [rdepth_append_right hclen] at hdi
      have hrlen : i' - children.length < rest.length := by omega
      obtain ⟨j', hj'i, hj'd, hj'btw⟩ := hr2 (i' - children.length) hrlen hdi
      have e2 : rdepth (row :: (children ++ rest)) (i' + 1)
          = rdepth rest (i' - children.length) := by
        rw [rdepth_cons_succ, rdepth_append_right hclen]
      refine ⟨j' + children.length + 1, by omega, ?_, ?_⟩
      · have e1 : rdepth (row :: (children ++ rest)) (j' + children.length + 1)
            = rdepth rest j' := by
          rw [rdepth_cons_succ,
            rdepth_append_right (by omega : children.length ≤ j' + children.length)]
          congr 1
          omega
        rw [e1, e2]
        exact hj'd
      · intro k hkj hki
        match k with
        | (k' + 1) =>
          have hk'c : children.length ≤ k' := by omega
          rw [e2, rdepth_cons_succ, rdepth_append_right hk'c]
          exact hj'btw (k' - children.length) (by omega) (by omega)

theorem flatten_recursive_deep {fs expanded sh depth idx i nodes}
    (h : depth > MAX_TREE_DEPTH) :
    flatten_recursive fs expanded sh depth idx i nodes = [] := by
  rw [flatten_recursive.eq_def]
  simp [h]

theorem flatten_recursive_nil {fs expanded sh depth idx i} :
    flatten_recursive fs expanded sh depth idx i [] = [] := by
  rw [flatten_recursive.eq_def]
  simp

theorem flatten_recursive_cons {fs expanded sh depth idx i node rest}
    (h : ¬ depth > MAX_TREE_DEPTH) :
    flatten_recursive fs expanded sh depth idx i (node :: rest) =
      if !sh && starts_with_char node.name '.' then
        flatten_recursive fs expanded sh depth idx (i + 1) rest
      else
        (⟨idx ++ [i], node.name, node.path, node.is_directory, node.is_symlink,
          depth, node.is_directory && expanded.contains node.path⟩ : VisibleRow) ::
        ((if node.is_directory && expanded.contains node.path then
            flatten_recursive fs expanded sh (depth + 1)
              (idx ++ [i]) 0 (build_tree (fs node.path))
          else []) ++
         flatten_recursive fs expanded sh depth idx (i + 1) rest) := by
  rw [flatten_recursive.eq_def]
  simp [h]

theorem flatten_recursive_props (fuel : Nat) :
    ∀ (fs : Nat → Except Unit (List TreeNode)) (expanded : List Nat)
      (sh : Bool) (depth : Nat) (idx : List Nat) (i : Nat)
      (nodes : List TreeNode), MAX_TREE_DEPTH + 1 - depth ≤ fuel →
    (∀ r ∈ flatten_recursive fs expanded sh depth idx i nodes, depth ≤ r.depth) ∧
    FlattenNested depth (flatten_recursive fs expanded sh depth idx i nodes) := by
  induction fuel with
  | zero =>
    intro fs expanded sh depth idx i nodes hfuel
    have hdeep : depth > MAX_TREE_DEPTH := by omega
    rw [flatten_recursive_deep hdeep]
    exact ⟨by simp, flattenNested_nil depth⟩
  | succ fuel ih =>
    intro fs expanded sh depth idx i nodes hfuel
    by_cases hdeep : depth > MAX_TREE_DEPTH
    · rw [flatten_recursive_deep hdeep]
      exact ⟨by simp, flattenNested_nil depth⟩
    · induction nodes generalizing i with
      | nil =>
        rw [flatten_recursive_nil]
        exact ⟨by simp, flattenNested_nil depth⟩
      | cons node rest ihn =>
        rw [flatten_recursive_cons hdeep]
        by_cases hh : (!sh && starts_with_char node.name '.') = true
        · rw [if_pos hh]
          exact ihn (i + 1)
        · rw [if_neg hh]
          obtain ⟨hrest1, hrest2⟩ := ihn (i + 1)
          have hch :
              (∀ r ∈ (if node.is_directory && expanded.contains node.path then
                  flatten_recursive fs expanded sh (depth + 1)
                    (idx ++ [i]) 0 (build_tree (fs node.path))
                else []), depth + 1 ≤ r.depth) ∧
              FlattenNested (depth + 1)
                (if node.is_directory && expanded.contains node.path then
                  flatten_recursive fs expanded sh (depth + 1)
                    (idx ++ [i]) 0 (build_tree (fs node.path))
                else []) := by
            by_cases he : (node.is_directory && expanded.contains node.path) = true
            · rw [if_pos he]
              exact ih fs expanded sh (depth + 1) (idx ++ [i]) 0
                (build_tree (fs node.path)) (by omega)
            · rw [if_neg he]
              exact ⟨by simp, flattenNested_nil _⟩
          refine ⟨?_, ?_⟩
          · intro r hr
            rcases List.mem_cons.mp hr with hr | hr
            · rw [hr]
            · rcases List.mem_append.mp hr with hr | hr
              · exact le_of_lt (Nat.lt_of_lt_of_le (Nat.lt_succ_self depth)
                  (hch.1 r hr))
              · exact hrest1 r hr
          · exact flattenNested_block rfl hch.1 hch.2 hrest2

theorem flatten_tree_props (fs : Nat → Except Unit (List TreeNode))
    (expanded : List Nat) (sh : Bool) (nodes : List TreeNode) :
    FlattenNested 0 (flatten_tree fs expanded sh nodes) :=
  (flatten_recursive_props (MAX_TREE_DEPTH + 1) fs expanded sh 0 [] 0 nodes
    (by omega)).2

theorem find_parent_loop_finds (rows : List VisibleRow) (cd index : Nat) :
    ∀ i j, j < i → rdepth rows j < cd →
      (∀ k, j < k → k < i → cd ≤ rdepth rows k) →
      find_parent_loop rows cd index i = j := by
  intro i
  induction i with
  | zero =>
    intro j hj
    omega
  | succ i ihi =>
    intro j hj hjd hbtw
    by_cases hji : j = i
    · subst hji
      simp [find_parent_loop, hjd]
    · have hlt : j < i := by omega
      have hge : cd ≤ rdepth rows i := hbtw i hlt (Nat.lt_succ_self i)
      rw [find_parent_loop, if_neg (by omega)]
      exact ihi j hlt hjd (fun k hk1 hk2 => hbtw k hk1 (by omega))

/-- Claim C1: in any flattened row list, every row at depth `d > 0` has
`find_parent_row` return a strictly earlier index whose row sits at depth
`d - 1` with no strictly-intervening row of depth `< d`, and every row at
depth `0` gets its own index back. -/
theorem flatten_find_parent_row_depth_consistent
    (fs : Nat → Except Unit (List TreeNode)) (expanded : List Nat)
    (sh : Bool) (nodes : List TreeNode) (i : Nat)
    (hi : i < (flatten_tree fs expanded sh nodes).length) :
    (0 < rdepth (flatten_tree fs expanded sh nodes) i →
      find_parent_row (flatten_tree fs expanded sh nodes) i < i ∧
      rdepth (flatten_tree fs expanded sh nodes)
          (find_parent_row (flatten_tree fs expanded sh nodes) i) + 1 =
        rdepth (flatten_tree fs expanded sh nodes) i ∧
      ∀ k, find_parent_row (flatten_tree fs expanded sh nodes) i < k → k < i →
        rdepth (flatten_tree fs expanded sh nodes) i ≤
          rdepth (flatten_tree fs expanded sh nodes) k) ∧
    (rdepth (flatten_tree fs expanded sh nodes) i = 0 →
      find_parent_row (flatten_tree fs expanded sh nodes) i = i) := by
  constructor
  · intro hd
    obtain ⟨j, hj, hjd, hbtw⟩ := flatten_tree_props fs expanded sh nodes i hi hd
    have hne : ¬ rdepth (flatten_tree fs expanded sh nodes) i = 0 := by omega
    have hfp : find_parent_row (flatten_tree fs expanded sh nodes) i = j := by
      simp only [find_parent_row]
      rw [if_neg hne]
      exact find_parent_loop_finds _ _ i i j hj (by omega) hbtw
    rw [hfp]
    exact ⟨hj, hjd, hbtw⟩
  · intro h0
    simp only [find_parent_row]
    rw [if_pos h0]

theorem flatten_tree_ex :
    flatten_tree fs_ex [1] false nodes_ex =
      [⟨[0], "a", 1, true, false, 0, true⟩,
       ⟨[0, 0], "x.txt", 2, false, false, 1, false⟩,
       ⟨[1], "b.txt", 3, false, false, 0, false⟩] := by
  simp only [flatten_tree, nodes_ex]
  rw [flatten_recursive_cons (by decide)]
  simp only [fs_ex, build_tree]
  norm_num
  rw [flatten_recursive_cons (by decide), flatten_recursive_cons (by decide)]
  simp only [flatten_recursive_nil]
  norm_num
  decide

/-- Witness for C1 on a concrete tree: row 1 (`x.txt`, depth 1) resolves to
parent row 0 (`a`, depth 0), and depth-0 row 2 maps to itself. -/
theorem flatten_find_parent_row_depth_consistent_witness :
    (find_parent_row (flatten_tree fs_ex [1] false nodes_ex) 1 < 1 ∧
      rdepth (flatten_tree fs_ex [1] false nodes_ex)
          (find_parent_row (flatten_tree fs_ex [1] false nodes_ex) 1) + 1 =
        rdepth (flatten_tree fs_ex [1] false nodes_ex) 1 ∧
      ∀ k, find_parent_row (flatten_tree fs_ex [1] false nodes_ex) 1 < k →
        k < 1 →
        rdepth (flatten_tree fs_ex [1] false nodes_ex) 1 ≤
          rdepth (flatten_tree fs_ex [1] false nodes_ex) k) ∧
    find_parent_row (flatten_tree fs_ex [1] false nodes_ex) 2 = 2 := by
  constructor
  · exact (flatten_find_parent_row_depth_consistent fs_ex [1] false nodes_ex 1
      (by rw [flatten_tree_ex]; decide)).1
      (by rw [flatten_tree_ex]; decide)
  · exact (flatten_find_parent_row_depth_consistent fs_ex [1] false nodes_ex 2
      (by rw [flatten_tree_ex]; decide)).2
      (by rw [flatten_tree_ex]; decide)

/-- Claim C3: the rendering path and the click hit-testing path compute the
same scroll offset for every `(totalRows, selectedIndex, height)` triple, and
that offset is the centered-clamped offset of the spec (with viewport height
`area_height - 1`, the list height both paths derive). -/
theorem scroll_offset_paths_agree (total selected area_height : Nat) :
    draw_tree_scroll_offset total selected area_height =
      click_tree_scroll_offset total selected area_height ∧
    (draw_tree_scroll_offset total selected area_height : Int) =
      spec_scroll_offset total selected (area_height - 1) := by
  refine ⟨rfl, ?_⟩
  unfold draw_tree_scroll_offset spec_scroll_offset
  by_cases h : total > area_height - 1
  · rw [if_pos h, if_pos h]
    push_cast
    omega
  · rw [if_neg h, if_neg h]
    rfl

theorem apply_sgr_nil (style : AnsiStyle) : apply_sgr style [] = style := by
  rw [apply_sgr.eq_def]

theorem scan_csi_abort (t : Nat) (rest : List Nat)
    (ht : ¬(48 ≤ t ∧ t ≤ 57)) (ht2 : t ≠ 59) (ht3 : t ≠ 109) :
    ∀ seq : List Nat, (∀ b ∈ seq, (48 ≤ b ∧ b ≤ 57) ∨ b = 59) →
      ∀ params num,
        scan_csi (seq ++ t :: rest) params num =
          (params ++ completed_params num seq, rest) := by
  intro seq
  induction seq with
  | nil =>
    intro _ params num
    rw [List.nil_append, scan_csi, if_neg ht, if_neg ht2, if_neg ht3,
      completed_params]
    simp
  | cons b seq ih =>
    intro hseq params num
    have hb := hseq b (List.mem_cons_self b seq)
    rw [List.cons_append, scan_csi, completed_params]
    by_cases hd : 48 ≤ b ∧ b ≤ 57
    · rw [if_pos hd, if_pos hd]
      exact ih (fun x hx => hseq x (List.mem_cons_of_mem b hx)) params _
    · have hb59 : b = 59 := by
        rcases hb with hb | hb
        · exact absurd hb hd
        · exact hb
      rw [if_neg hd, if_neg hd, if_pos hb59,
        ih (fun x hx => hseq x (List.mem_cons_of_mem b hx))
          (params ++ [num.getD 0]) none]
      simp

theorem completed_params_of_digits :
    ∀ seq : List Nat, (∀ b ∈ seq, 48 ≤ b ∧ b ≤ 57) →
      ∀ num, completed_params num seq = [] := by
  intro seq
  induction seq with
  | nil =>
    intro _ num
    rw [completed_params]
  | cons b seq ih =>
    intro hseq num
    rw [completed_params, if_pos (hseq b (List.mem_cons_self b seq))]
    exact ih (fun x hx => hseq x (List.mem_cons_of_mem b hx)) _

/-- Claim C4 (amended): a CSI sequence aborted by a terminator byte other
than `m` applies exactly the parameters already completed by `;` separators
before the aborting byte (`completed_params`), discarding the parameter
being accumulated at the aborting byte; and in particular a sequence
containing no `;` — digits followed directly by the aborting byte — is
dropped with the style in effect completely unchanged. -/
theorem csi_abort_applies_completed_params (style : AnsiStyle)
    (buf : List Char) (seq : List Nat) (t : Nat) (rest : List Nat)
    (hseq : ∀ b ∈ seq, (48 ≤ b ∧ b ≤ 57) ∨ b = 59)
    (ht : ¬(48 ≤ t ∧ t ≤ 57)) (ht2 : t ≠ 59) (ht3 : t ≠ 109) :
    (ansi_run style buf (27 :: 91 :: (seq ++ t :: rest)) =
      (if buf = [] then [] else [(buf, style)]) ++
        ansi_run (apply_sgr style (completed_params none seq)) [] rest) ∧
    ((∀ b ∈ seq, 48 ≤ b ∧ b ≤ 57) →
      ansi_run style buf (27 :: 91 :: (seq ++ t :: rest)) =
        (if buf = [] then [] else [(buf, style)]) ++
          ansi_run style [] rest) := by
  have hmain : ansi_run style buf (27 :: 91 :: (seq ++ t :: rest)) =
      (if buf = [] then [] else [(buf, style)]) ++
        ansi_run (apply_sgr style (completed_params none seq)) [] rest := by
    rw [ansi_run.eq_def]
    simp [scan_csi_abort t rest ht ht2 ht3 seq hseq]
  refine ⟨hmain, fun hd => ?_⟩
  rw [hmain, completed_params_of_digits seq hd none, apply_sgr_nil]

/-- Witness for the amended C4: aborting `ESC [ 1 ; X` before `"A"` applies
exactly the completed parameter list `completed_params none [49, 59]`
(which is `[1]`), and the digit-only sequence `ESC [ 3 X` leaves the default
style in force. -/
theorem csi_abort_applies_completed_params_witness :
    (ansi_run AnsiStyle.default [] [27, 91, 49, 59, 88, 65] =
      (if ([] : List Char) = [] then [] else [([], AnsiStyle.default)]) ++
        ansi_run (apply_sgr AnsiStyle.default
          (completed_params none [49, 59])) [] [65]) ∧
    ansi_run AnsiStyle.default [] [27, 91, 51, 88, 65] =
      (if ([] : List Char) = [] then [] else [([], AnsiStyle.default)]) ++
        ansi_run AnsiStyle.default [] [65] :=
  ⟨(csi_abort_applies_completed_params AnsiStyle.default [] [49, 59] 88 [65]
      (by decide) (by decide) (by decide) (by decide)).1,
   (csi_abort_applies_completed_params AnsiStyle.default [] [51] 88 [65]
      (by decide) (by decide) (by decide) (by decide)).2 (by decide)⟩

/-- Counterexample to C4 as stated: in `"\x1b[1;XA"` the CSI sequence is
terminated by `X`, not `m`, yet the parameter `1` completed by the `;` IS
applied: the following run `"A"` is bold, not the style in effect before
`ESC [` (the default style). -/
theorem csi_nonterminal_applies_completed_params_cex :
    parse_ansi_line [27, 91, 49, 59, 88, 65] =
      [(['A'], { AnsiStyle.default with bold := true })] ∧
    ({ AnsiStyle.default with bold := true } : AnsiStyle) ≠ AnsiStyle.default := by
  constructor
  · simp [parse_ansi_line, ansi_run.eq_def, scan_csi, apply_sgr.eq_def,
      AnsiStyle.default]
  · decide

theorem spans_text_append (l₁ l₂ : List (List Char × AnsiStyle)) :
    spans_text (l₁ ++ l₂) = spans_text l₁ ++ spans_text l₂ := by
  induction l₁ with
  | nil => rfl
  | cons sp l₁ ih =>
    show sp.1 ++ spans_text (l₁ ++ l₂) = (sp.1 ++ spans_text l₁) ++ spans_text l₂
    rw [ih, List.append_assoc]

/-- Claim C5 (amended): for every style, pending buffer and byte input, the
concatenated text of all emitted spans is the pending buffer followed by the
input bytes with CSI sequences removed, each surviving byte decoded as ONE
char with that byte's code point (`bytes[i] as char`, Latin-1). ASCII bytes
are hence preserved exactly; each byte of a multi-byte UTF-8 character
becomes a separate (wrong) character. -/
theorem ansi_spans_text_strip (style : AnsiStyle) (buf : List Char)
    (bytes : List Nat) :
    spans_text (ansi_run style buf bytes) =
      buf ++ (strip_csi bytes).map Char.ofNat := by
  induction style, buf, bytes using ansi_run.induct with
  | case1 style =>
    rw [ansi_run, strip_csi]
    simp [spans_text]
  | case2 style buf hne =>
    rw [ansi_run, strip_csi]
    simp [spans_text, hne]
  | case3 style buf b ih =>
    rw [ansi_run, strip_csi, ih]
    simp [strip_csi]
  | case4 style buf b r rest2 hesc ih =>
    rw [ansi_run, strip_csi, if_pos hesc, if_pos hesc, spans_text_append, ih]
    by_cases h : buf = []
    · simp [h, spans_text]
    · simp [h, spans_text]
  | case5 style buf b r rest2 hne ih =>
    rw [ansi_run, strip_csi, if_neg hne, if_neg hne, ih]
    simp

/-- Counterexample to C5 as stated: the input `"é"` contains no CSI sequence,
so "the input with its CSI escape sequences removed" is `"é"` itself; but the
parser emits the two bytes of the character as two separate chars
(`Ã`, U+00C3 and `©`, U+00A9), so the concatenated span text differs from the
input's characters: the multi-byte character is not preserved intact. -/
theorem ansi_multibyte_not_preserved_cex :
    parse_ansi_line (utf8_bytes "é") =
      [([Char.ofNat 195, Char.ofNat 169], AnsiStyle.default)] ∧
    spans_text (parse_ansi_line (utf8_bytes "é")) ≠ "é".data := by
  have hb : utf8_bytes "é" = [195, 169] := by decide
  have h : parse_ansi_line (utf8_bytes "é") =
      [([Char.ofNat 195, Char.ofNat 169], AnsiStyle.default)] := by
    rw [hb]
    simp [parse_ansi_line, ansi_run.eq_def]
  refine ⟨h, ?_⟩
  rw [h]
  decide

theorem find_closing_le (chars : List Char) (target : Char) :
    ∀ k, find_closing chars target = some k → k < chars.length := by
  induction chars with
  | nil =>
    intro k hk
    simp [find_closing] at hk
  | cons a rest ih =>
    intro k hk
    rw [find_closing] at hk
    by_cases h : a = target
    · rw [if_pos h] at hk
      simp at hk
      simp only [List.length_cons]
      omega
    · rw [if_neg h] at hk
      match hfc : find_closing rest target with
      | none => rw [hfc] at hk; simp at hk
      | some k' =>
        rw [hfc] at hk
        simp at hk
        have := ih k' hfc
        simp only [List.length_cons]
        omega

theorem find_double_closing_le (target : Char) :
    ∀ chars k, find_double_closing chars target = some k →
      k + 1 < chars.length := by
  intro chars
  induction chars with
  | nil =>
    intro k hk
    simp [find_double_closing] at hk
  | cons a rest ih =>
    intro k hk
    match rest, ih with
    | [], _ => simp [find_double_closing] at hk
    | b :: rest2, ih =>
      rw [find_double_closing] at hk
      by_cases h : a = target ∧ b = target
      · rw [if_pos h] at hk
        simp at hk
        simp
        omega
      · rw [if_neg h] at hk
        match hfc : find_double_closing (b :: rest2) target with
        | none => rw [hfc] at hk; simp at hk
        | some k' =>
          rw [hfc] at hk
          simp at hk
          have := ih k' hfc
          simp at this ⊢
          omega

/-- Claim C6 (amended): `render_inline "**a *b* c**"` emits a single
bold-wrapped run whose content is the LITERAL text `a *b* c` — the inner
asterisks survive and no italic styling is produced, because the content of
a bold span is not recursively inline-parsed; and the unmatched opener in
`"*dangling"` falls through as a literal, unstyled asterisk. -/
theorem render_inline_bold_literal_inner :
    render_inline "**a *b* c**" = "\x1b[1ma *b* c\x1b[0m" ∧
    render_inline "*dangling" = "*dangling" := by
  constructor
  · simp [render_inline, inline_go.eq_def, find_closing, find_double_closing,
      ESC_BOLD, ESC_RESET]
  · simp [render_inline, inline_go.eq_def, find_closing, find_double_closing]

/-- Counterexample to C6 as stated: the output for `"**a *b* c**"` contains
no italic escape sequence at all (and keeps the inner asterisks verbatim),
so the inner `*b*` is NOT additionally rendered italic. -/
theorem render_inline_no_nested_italic_cex :
    render_inline "**a *b* c**" = "\x1b[1ma *b* c\x1b[0m" ∧
    ¬ ESC_ITALIC <:+: (render_inline "**a *b* c**").data := by
  have h : render_inline "**a *b* c**" = "\x1b[1ma *b* c\x1b[0m" := by
    simp [render_inline, inline_go.eq_def, find_closing, find_double_closing,
      ESC_BOLD, ESC_RESET]
  refine ⟨h, ?_⟩
  rw [h]
  decide

/-- Claim C7: a non-directory, non-binary-extension file strictly larger
than 512 KiB yields the oversize `Text` placeholder, with the result
independent of any read content (the file is not read); exactly 512 KiB is
read and previewed from content; zero length yields `Empty`; and
`format_size` renders `0` as `"0 B"` and `2048` as `"2.0 KB"`. -/
theorem preview_size_thresholds (ext : Option String) (len : Nat)
    (r r₂ : Except String String) (c : String)
    (dp : PreviewContent × Nat) (rm : String → String)
    (hl : Option (String → String))
    (hb : is_likely_binary ext = false) (hlen : MAX_PREVIEW_BYTES < len) :
    Previewer.preview (.ok ⟨false, len⟩) ext r dp rm hl =
      (.Text ("File too large to preview (" ++ format_size len ++ ")"), 1) ∧
    Previewer.preview (.ok ⟨false, len⟩) ext r dp rm hl =
      Previewer.preview (.ok ⟨false, len⟩) ext r₂ dp rm hl ∧
    Previewer.preview (.ok ⟨false, MAX_PREVIEW_BYTES⟩) (some "txt") (.ok c)
        dp rm none =
      (.Text (if (rust_lines c).length > MAX_PREVIEW_LINES then
          String.intercalate "\n" ((rust_lines c).take MAX_PREVIEW_LINES)
        else c),
       (rust_lines c).length) ∧
    Previewer.preview (.ok ⟨false, 0⟩) ext r dp rm hl = (.Empty, 1) ∧
    format_size 0 = "0 B" ∧ format_size 2048 = "2.0 KB" := by
  have hnz : ¬ len = 0 := by
    have : MAX_PREVIEW_BYTES = 524288 := by decide
    omega
  have hover : Previewer.preview (.ok ⟨false, len⟩) ext r dp rm hl =
      (.Text ("File too large to preview (" ++ format_size len ++ ")"), 1) := by
    simp [Previewer.preview, hb, hnz, hlen]
  refine ⟨hover, ?_, ?_, ?_, ?_, ?_⟩
  · rw [hover]
    simp [Previewer.preview, hb, hnz, hlen]
  · have h1 : is_likely_binary (some "txt") = false := by decide
    have h2 : ¬(lower_str "txt" = "md" ∨ lower_str "txt" = "mdx") := by decide
    simp [Previewer.preview, h1, h2, MAX_PREVIEW_BYTES]
  · simp [Previewer.preview, hb]
  · decide
  · decide

/-- Witness for C7 at concrete inputs (a 524289-byte `.rs` file, and a
`"hello"`-content `.txt` file of exactly 512 KiB). -/
theorem preview_size_thresholds_witness :
    Previewer.preview (.ok ⟨false, 524289⟩) (some "rs") (.ok "x") (.Empty, 0)
        (fun s => s) none =
      (.Text ("File too large to preview (" ++ format_size 524289 ++ ")"), 1) ∧
    Previewer.preview (.ok ⟨false, 524289⟩) (some "rs") (.ok "x") (.Empty, 0)
        (fun s => s) none =
      Previewer.preview (.ok ⟨false, 524289⟩) (some "rs") (.error "boom")
        (.Empty, 0) (fun s => s) none ∧
    Previewer.preview (.ok ⟨false, MAX_PREVIEW_BYTES⟩) (some "txt")
        (.ok "hello") (.Empty, 0) (fun s => s) none =
      (.Text (if (rust_lines "hello").length > MAX_PREVIEW_LINES then
          String.intercalate "\n" ((rust_lines "hello").take MAX_PREVIEW_LINES)
        else "hello"),
       (rust_lines "hello").length) ∧
    Previewer.preview (.ok ⟨false, 0⟩) (some "rs") (.ok "x") (.Empty, 0)
        (fun s => s) none = (.Empty, 1) ∧
    format_size 0 = "0 B" ∧ format_size 2048 = "2.0 KB" :=
  preview_size_thresholds (some "rs") 524289 (.ok "x") (.error "boom") "hello"
    (.Empty, 0) (fun s => s) none (by decide) (by decide)

/-- Claim C9: `update_preview` is an exact single-slot memo: when the
selected row's path equals the last computed path the whole app state
(including the cached `(PreviewContent, total_line_count)` pair) is returned
unchanged and the previewer is never consulted; otherwise the cache and the
cache key are recomputed from the current selection. -/
theorem update_preview_memoization (pv : Nat → PreviewContent × Nat)
    (app : App) :
    ((app.visible_rows[app.selected_index]?).map VisibleRow.path =
        app.last_preview_path →
      App.update_preview pv app = app) ∧
    ((app.visible_rows[app.selected_index]?).map VisibleRow.path ≠
        app.last_preview_path →
      App.update_preview pv app =
        { app with
          last_preview_path :=
            (app.visible_rows[app.selected_index]?).map VisibleRow.path
          preview_cache :=
            match (app.visible_rows[app.selected_index]?).map VisibleRow.path
              with
            | some p => pv p
            | none => (.Empty, 0) }) := by
  constructor
  · intro h
    unfold App.update_preview
    simp [h]
  · intro h
    unfold App.update_preview
    simp [h]

/-- Witness for C9: a cache hit leaves the state untouched; a mismatch
overwrites key and cache. -/
theorem update_preview_memoization_witness :
    App.update_preview (fun _ => (.Empty, 0)) app_ex0 = app_ex0 ∧
    App.update_preview (fun _ => (.Empty, 0)) app_ex1 =
      { app_ex1 with
        last_preview_path := none
        preview_cache := (.Empty, 0) } := by
  constructor
  · exact (update_preview_memoization (fun _ => (.Empty, 0)) app_ex0).1 rfl
  · exact (update_preview_memoization (fun _ => (.Empty, 0)) app_ex1).2
      (by decide)

theorem update_preview_rows_sel (pv : Nat → PreviewContent × Nat) (app : App) :
    (App.update_preview pv app).visible_rows = app.visible_rows ∧
    (App.update_preview pv app).selected_index = app.selected_index := by
  simp only [App.update_preview]
  split <;> simp

theorem selInv_update_preview (pv : Nat → PreviewContent × Nat) (app : App)
    (h : SelInv app) : SelInv (App.update_preview pv app) := by
  have hf := update_preview_rows_sel pv app
  unfold SelInv at h ⊢
  rw [hf.1, hf.2]
  exact h

theorem selInv_clamp (app : App) :
    SelInv (if app.visible_rows.isEmpty then { app with selected_index := 0 }
      else if app.visible_rows.length ≤ app.selected_index then
        { app with selected_index := app.visible_rows.length - 1 }
      else app) := by
  split_ifs with h1 h2
  · simp [SelInv, List.isEmpty_iff.mp h1]
  · have hlen : app.visible_rows.length ≠ 0 := by
      intro h0
      rw [List.length_eq_zero] at h0
      rw [List.isEmpty_iff] at h1
      exact h1 h0
    simp only [SelInv]
    split_ifs <;> omega
  · simp only [SelInv]
    split_ifs <;> omega

theorem selInv_refresh (fs : Nat → Except Unit (List TreeNode))
    (pv : Nat → PreviewContent × Nat) (app : App) :
    SelInv (App.refresh fs pv app) := by
  unfold App.refresh
  apply selInv_update_preview
  exact selInv_clamp _

theorem find_parent_loop_le (rows : List VisibleRow) (cd index : Nat) :
    ∀ i, i ≤ index → find_parent_loop rows cd index i ≤ index := by
  intro i
  induction i with
  | zero =>
    intro _
    simp [find_parent_loop]
  | succ i ih =>
    intro hle
    rw [find_parent_loop]
    split
    · omega
    · exact ih (by omega)

theorem find_parent_row_le (rows : List VisibleRow) (index : Nat) :
    find_parent_row rows index ≤ index := by
  simp only [find_parent_row]
  split
  · exact le_refl index
  · exact find_parent_loop_le rows _ index index (le_refl index)

theorem selInv_toggle_expand (fs : Nat → Except Unit (List TreeNode))
    (pv : Nat → PreviewContent × Nat) (app : App) (h : SelInv app) :
    SelInv (App.toggle_expand fs pv app) := by
  unfold App.toggle_expand
  split
  · exact h
  · split
    · exact h
    · exact selInv_refresh fs pv _

theorem selInv_set_sel (app : App) (n ps : Nat)
    (h : if app.visible_rows.length = 0 then n = 0
      else n < app.visible_rows.length) :
    SelInv { app with selected_index := n, preview_scroll := ps } := h

theorem selInv_move_up (pv : Nat → PreviewContent × Nat) (app : App)
    (h : SelInv app) : SelInv (App.move_up pv app) := by
  unfold App.move_up
  split_ifs with hpos
  · apply selInv_update_preview
    apply selInv_set_sel
    simp only [SelInv] at h
    split_ifs at h ⊢ <;> omega
  · exact h

theorem selInv_move_down (pv : Nat → PreviewContent × Nat) (app : App)
    (h : SelInv app) : SelInv (App.move_down pv app) := by
  unfold App.move_down
  split_ifs with hpos
  · apply selInv_update_preview
    apply selInv_set_sel
    simp only [SelInv] at h
    split_ifs at h ⊢ <;> omega
  · exact h

theorem selInv_jump_top (pv : Nat → PreviewContent × Nat) (app : App) :
    SelInv (App.jump_top pv app) := by
  unfold App.jump_top
  apply selInv_update_preview
  apply selInv_set_sel
  split_ifs <;> omega

theorem selInv_jump_bottom (pv : Nat → PreviewContent × Nat) (app : App) :
    SelInv (App.jump_bottom pv app) := by
  unfold App.jump_bottom
  apply selInv_update_preview
  apply selInv_set_sel
  split_ifs <;> omega

theorem selInv_collapse_or_parent (fs : Nat → Except Unit (List TreeNode))
    (pv : Nat → PreviewContent × Nat) (app : App) (h : SelInv app) :
    SelInv (App.collapse_or_parent fs pv app) := by
  unfold App.collapse_or_parent
  split
  · exact h
  · rename_i row heq
    split_ifs with hexp
    · exact selInv_refresh fs pv _
    · dsimp only
      split_ifs with hne
      · apply selInv_update_preview
        apply selInv_set_sel
        obtain ⟨hlt, -⟩ := List.getElem?_eq_some.mp heq
        have hple := find_parent_row_le app.visible_rows app.selected_index
        split_ifs <;> omega
      · exact h

theorem selInv_toggle_hidden (fs : Nat → Except Unit (List TreeNode))
    (pv : Nat → PreviewContent × Nat) (app : App) :
    SelInv (App.toggle_hidden fs pv app) := by
  unfold App.toggle_hidden
  exact selInv_refresh fs pv _

theorem selInv_click_tree (fs : Nat → Except Unit (List TreeNode))
    (pv : Nat → PreviewContent × Nat) (y ah : Nat) (app : App)
    (h : SelInv app) : SelInv (App.click_tree fs pv y ah app) := by
  simp only [App.click_tree]
  split_ifs <;> first
    | exact h
    | (apply selInv_toggle_expand
       apply selInv_update_preview
       apply selInv_set_sel
       split_ifs <;> omega)
    | (apply selInv_update_preview
       apply selInv_set_sel
       split_ifs <;> omega)

/-- Claim C10: every App operation preserves the selection bound invariant
(`selected_index = 0` on an empty row list, `selected_index` strictly in
bounds otherwise), for every filesystem content, previewer, click
coordinates and scroll amount. -/
theorem app_ops_preserve_selection_invariant
    (fs : Nat → Except Unit (List TreeNode))
    (pv : Nat → PreviewContent × Nat) (app : App) (y ah amt : Nat)
    (h : SelInv app) :
    SelInv (App.refresh fs pv app) ∧
    SelInv (App.move_up pv app) ∧
    SelInv (App.move_down pv app) ∧
    SelInv (App.jump_top pv app) ∧
    SelInv (App.jump_bottom pv app) ∧
    SelInv (App.toggle_expand fs pv app) ∧
    SelInv (App.collapse_or_parent fs pv app) ∧
    SelInv (App.toggle_hidden fs pv app) ∧
    SelInv (App.click_tree fs pv y ah app) ∧
    SelInv (App.scroll_preview_up amt app) ∧
    SelInv (App.scroll_preview_down amt app) :=
  ⟨selInv_refresh fs pv app,
   selInv_move_up pv app h,
   selInv_move_down pv app h,
   selInv_jump_top pv app,
   selInv_jump_bottom pv app,
   selInv_toggle_expand fs pv app h,
   selInv_collapse_or_parent fs pv app h,
   selInv_toggle_hidden fs pv app,
   selInv_click_tree fs pv y ah app h,
   h, h⟩

/-- Witness for C10 on the concrete empty app and error filesystem. -/
theorem app_ops_preserve_selection_invariant_witness :
    SelInv (App.refresh (fun _ => .error ()) (fun _ => (.Empty, 0)) app_ex0) ∧
    SelInv (App.move_up (fun _ => (.Empty, 0)) app_ex0) ∧
    SelInv (App.move_down (fun _ => (.Empty, 0)) app_ex0) ∧
    SelInv (App.jump_top (fun _ => (.Empty, 0)) app_ex0) ∧
    SelInv (App.jump_bottom (fun _ => (.Empty, 0)) app_ex0) ∧
    SelInv (App.toggle_expand (fun _ => .error ()) (fun _ => (.Empty, 0))
      app_ex0) ∧
    SelInv (App.collapse_or_parent (fun _ => .error ()) (fun _ => (.Empty, 0))
      app_ex0) ∧
    SelInv (App.toggle_hidden (fun _ => .error ()) (fun _ => (.Empty, 0))
      app_ex0) ∧
    SelInv (App.click_tree (fun _ => .error ()) (fun _ => (.Empty, 0)) 3 10
      app_ex0) ∧
    SelInv (App.scroll_preview_up 2 app_ex0) ∧
    SelInv (App.scroll_preview_down 2 app_ex0) :=
  app_ops_preserve_selection_invariant (fun _ => .error ())
    (fun _ => (.Empty, 0)) app_ex0 3 10 2 (by simp [SelInv, app_ex0])
